import Mathlib

/-!
Verification of the retrieval-and-context-assembly pipeline of the
Game of Thrones fandom chatbot.

Strings are modelled as `List Char` (`Str`).  Python string operations
(`lower`, `strip`, `find`, `rfind`, slicing, `split`) are embedded as
executable functions on `Str`; Python's `-1` "not found" sentinel is
modelled with `Option Nat`.  `isSpace` models the whitespace characters
Python's `str.strip()` removes (ASCII range).  The pipeline functions
(`get_excerpt`, `create_context`, the rule-based response formatter, the
entity extractor of the hallucination filter, and the upsert-based
document import) are translated from `mongodb_connect.py`, `got_chatbot.py` and
`llm_integration.py`.
-/

abbrev Str := List Char

/-- Convert a Lean string literal to the `List Char` representation. -/
def strL (s : String) : Str := s.toList

/-- The apostrophe character, kept out of string literals. -/
def apoStr : Str := [Char.ofNat 39]

/-- Python `chr.lower()` for the ASCII range: map `A`..`Z` to `a`..`z`,
leave everything else unchanged. -/
def lowerChar (c : Char) : Char :=
  if 65 ≤ c.toNat ∧ c.toNat ≤ 90 then Char.ofNat (c.toNat + 32) else c

/-- Python `str.lower()` (ASCII range). -/
def lowerStr (s : Str) : Str := s.map lowerChar

/-- The whitespace characters stripped by Python `str.strip()` / split by
`str.split()` (ASCII range): space, tab, newline, carriage return,
vertical tab, form feed. -/
def isSpace (c : Char) : Bool :=
  c.toNat = 32 || c.toNat = 9 || c.toNat = 10 || c.toNat = 13 ||
  c.toNat = 11 || c.toNat = 12

/-- Python `str.lstrip()`. -/
def lstrip (s : Str) : Str := s.dropWhile isSpace

/-- Python `str.rstrip()`. -/
def rstrip (s : Str) : Str := (s.reverse.dropWhile isSpace).reverse

/-- Python `str.strip()`. -/
def pyStrip (s : Str) : Str := rstrip (lstrip s)

/-- Python slice `s[a:b]` for nonnegative clamped bounds. -/
def pySlice (s : Str) (a b : Nat) : Str := (s.take b).drop a

/-- Index of the first occurrence of `p` in `t` (Python `t.find(p)`,
with `none` for Python's `-1`). -/
def firstOccFrom (p : Str) : Str → Option Nat
  | [] => if p <+: ([] : Str) then some 0 else none
  | c :: t => if p <+: (c :: t) then some 0 else (firstOccFrom p t).map (· + 1)

/-- Index of the last occurrence of `p` in `t` (Python `t.rfind(p)`,
with `none` for Python's `-1`). -/
def lastOcc (p : Str) : Str → Option Nat
  | [] => if p <+: ([] : Str) then some 0 else none
  | c :: t =>
    match (lastOcc p t).map (· + 1) with
    | some j => some j
    | none => if p <+: (c :: t) then some 0 else none

/-- Fueled worker for Python `str.split(sep)` with a nonempty separator. -/
def pySplitAux : Nat → Str → Str → List Str
  | 0, _, s => [s]
  | fuel + 1, sep, s =>
    match firstOccFrom sep s with
    | none => [s]
    | some i => pySlice s 0 i :: pySplitAux fuel sep (s.drop (i + sep.length))

/-- Python `str.split(sep)` for a nonempty separator: the fuel
`s.length + 1` always suffices because each step consumes at least one
character of `s`. -/
def pySplit (sep s : Str) : List Str := pySplitAux (s.length + 1) sep s

/-- Fueled worker for Python no-argument `str.split()`. -/
def wsTokensAux : Nat → Str → List Str
  | 0, _ => []
  | _ + 1, [] => []
  | fuel + 1, c :: rest =>
    if isSpace c then wsTokensAux fuel rest
    else (c :: rest.takeWhile (fun d => !isSpace d)) ::
      wsTokensAux fuel (rest.dropWhile (fun d => !isSpace d))

/-- Python no-argument `str.split()`: maximal runs of non-whitespace
characters, empties discarded.  Each step of the worker consumes at least
one character, so fuel `s.length + 1` always suffices. -/
def wsTokens (s : Str) : List Str := wsTokensAux (s.length + 1) s

/-- A stored wiki document: `title` plus `content` text.  Timestamps and
filenames carried by the Python dictionaries play no role in the core. -/
structure Doc where
  title : Str
  content : Str
deriving DecidableEq

/-- The blank-line / paragraph separator string. -/
def nnStr : Str := ['\n', '\n']

/-- The ellipsis marker appended or prepended by the excerpt extractor. -/
def dots : Str := ['.', '.', '.']

/-- The final left boundary of the excerpt window around a match at
`pos`: the result of `content.rfind("\n\n", 0, pos)` plus 2 when positive
and within the 500-character look-back window, else `max(0, pos - context_chars)`
(natural subtraction models Python's `max(0, ...)`). -/
def excStart (content : Str) (pos context_chars : Nat) : Nat :=
  match lastOcc nnStr (content.take pos) with
  | some ps => if 0 < ps ∧ pos < ps + 500 then ps + 2 else pos - context_chars
  | none => pos - context_chars

/-- The final right boundary of the excerpt window around a match at
`pos`: the result of `content.find("\n\n", pos)` when within the
500-character look-ahead window, else `min(len, pos + len(q) + context_chars)`. -/
def excEnd (content q : Str) (pos context_chars : Nat) : Nat :=
  match firstOccFrom nnStr (content.drop pos) with
  | some j =>
    if 0 < pos + j ∧ j < 500 then pos + j
    else min content.length (pos + q.length + context_chars)
  | none => min content.length (pos + q.length + context_chars)

/-- Embedding of `GOTMongoConnection.get_excerpt` (mongodb_connect.py):
find the first case-insensitive occurrence of `q` in `content`, cut a
window of `context_chars` characters around it, widen to paragraph
boundaries within a 500-character window (`excStart`, `excEnd`), strip,
and add ellipsis markers; if `q` does not occur, return the stripped
300-character prefix followed by an ellipsis marker. -/
def get_excerpt (content q : Str) (context_chars : Nat) : Str :=
  match firstOccFrom (lowerStr q) (lowerStr content) with
  | some pos =>
    let start1 := excStart content pos context_chars
    let end1 := excEnd content q pos context_chars
    let excerpt := pyStrip (pySlice content start1 end1)
    let e1 := if 0 < start1 then dots ++ excerpt else excerpt
    if end1 < content.length then e1 ++ dots else e1
  | none => pyStrip (content.take 300) ++ dots

/-- One formatted context block `--- title ---` + newline + excerpt, as
built by `GOTMongoConnection.create_context` (which calls `get_excerpt`
with its default `context_chars = 150`). -/
def fmtBlock (q : Str) (d : Doc) : Str :=
  strL "--- " ++ d.title ++ strL " ---\n" ++ get_excerpt d.content q 150

/-- Python `"\n\n".join(parts)`. -/
def joinBlank : List Str → Str
  | [] => []
  | [x] => x
  | x :: y :: r => x ++ nnStr ++ joinBlank (y :: r)

/-- The accumulation loop of `GOTMongoConnection.create_context`: walk the
search hits in rank order, appending a hit's block whenever the running
accounted length (`len(excerpt) + len(title) + 10` per block) stays within
`max_chars`, and otherwise leaving the accumulator untouched and moving on
to the next hit. -/
def ccAux (q : Str) (mc : Nat) : List Doc → List Str → Nat → List Str
  | [], parts, _ => parts
  | d :: rest, parts, total =>
    let exc := get_excerpt d.content q 150
    if total + exc.length + d.title.length + 10 ≤ mc then
      ccAux q mc rest (parts ++ [fmtBlock q d]) (total + exc.length + d.title.length + 10)
    else
      ccAux q mc rest parts total

/-- Embedding of `GOTMongoConnection.create_context` over the ranked hit
list returned by the store's search: pack accepted blocks and join them
with a blank line. -/
def create_context (hits : List Doc) (q : Str) (mc : Nat) : Str :=
  joinBlank (ccAux q mc hits [] 0)

/-- Sum of the lengths of a list of strings. -/
def sumLen (l : List Str) : Nat := (l.map List.length).sum

/-- MongoDB `update_one({title: d.title}, {$set: d}, upsert=True)`: replace
the fields of the first stored document whose title matches, or append the
document when no title matches. -/
def upsertDoc (d : Doc) : List Doc → List Doc
  | [] => [d]
  | x :: xs => if x.title = d.title then d :: xs else x :: upsertDoc d xs

/-- The import loop of `import_from_jsonl`: upsert each parsed document in
order into the store. -/
def importDocs (ds : List Doc) (store : List Doc) : List Doc :=
  ds.foldl (fun s d => upsertDoc d s) store

/-- The external retrieval backends seen by `GOTMongoConnection`: the
outcome of the MongoDB text query, the outcome of the vector-index
aggregation (embedding plus `knnBeta` search, which may raise), and
whether an embeddings model was initialized. -/
structure RetrievalBackend where
  textResult : Str → Nat → Except Str (List Doc)
  vecResult : Str → Nat → Except Str (List Doc)
  hasEmbeddings : Bool

/-- Embedding of `GOTMongoConnection.search`: run the MongoDB text query
and catch any backend exception, returning the empty hit list. -/
def search (b : RetrievalBackend) (q : Str) (lim : Nat) : List Doc :=
  match b.textResult q lim with
  | .ok r => r
  | .error _ => []

/-- Embedding of `GOTMongoConnection.vector_search`: when no embeddings
model is available, use text search; otherwise run the vector path and,
if it raises, catch the exception and fall back to text search. -/
def vector_search (b : RetrievalBackend) (q : Str) (lim : Nat) : List Doc :=
  if b.hasEmbeddings then
    match b.vecResult q lim with
    | .ok r => r
    | .error _ => search b q lim
  else search b q lim

/-- The interrogative classification used by `generate_response`
(got_chatbot.py) and `_generate_fallback_response` (llm_integration.py). -/
inductive QueryClass where
  | about
  | location
  | time
  | reason
  | process
  | general
deriving DecidableEq

/-- The if/elif chain classifying a query by case-insensitive substring
matching on the raw query, first match winning. -/
def classify (q : Str) : QueryClass :=
  let lq := lowerStr q
  if strL "who" <:+: lq ∨ strL "what is" <:+: lq then .about
  else if strL "where" <:+: lq then .location
  else if strL "when" <:+: lq then .time
  else if strL "why" <:+: lq then .reason
  else if strL "how" <:+: lq then .process
  else .general

/-- The fixed list of no-information phrasings of `_get_no_info_response`
(identical in got_chatbot.py and llm_integration.py). -/
def noInfoResponses : List Str :=
  [strL "I don" ++ apoStr ++ strL "t have enough information about that in my Game of Thrones knowledge.",
   strL "That doesn" ++ apoStr ++ strL "t appear in my records of Westeros and Essos.",
   strL "The maesters haven" ++ apoStr ++ strL "t recorded that information in my archives.",
   strL "I don" ++ apoStr ++ strL "t know about that aspect of Game of Thrones. Would you like to ask about one of the main characters or houses instead?",
   strL "My knowledge of the Seven Kingdoms doesn" ++ apoStr ++ strL "t include that information.",
   strL "Even the Spider" ++ apoStr ++ strL "s little birds haven" ++ apoStr ++ strL "t whispered that to me yet."]

/-- Embedding of `_get_no_info_response`: `random.choice` over the fixed
list, with the random draw injected as a natural number. -/
def get_no_info_response (rand : Nat) : Str :=
  noInfoResponses.getD (rand % 6) []

/-- The fixed list of known location names of `_format_location_response`
(llm_integration.py). -/
def locationsList : List Str :=
  [strL "Winterfell", strL "King" ++ apoStr ++ strL "s Landing", strL "The Wall",
   strL "Casterly Rock", strL "Dragonstone", strL "The North", strL "The Riverlands",
   strL "The Vale", strL "The Westerlands", strL "The Reach", strL "Dorne",
   strL "The Iron Islands", strL "The Stormlands", strL "Braavos", strL "Volantis",
   strL "Pentos", strL "Meereen", strL "Astapor", strL "Yunkai", strL "Qarth",
   strL "Valyria"]

/-- The ordered temporal indicator words of `_format_time_response`. -/
def timeIndicators : List Str :=
  [strL "during", strL "after", strL "before", strL "when", strL "at the time",
   strL "following", strL "AC", strL "BC", strL "age", strL "year"]

/-- The ordered reason indicator words of `_format_reason_response`. -/
def reasonIndicators : List Str :=
  [strL "because", strL "due to", strL "as a result", strL "reason",
   strL "motivated by", strL "intended to"]

/-- Sentence extraction shared by the time and reason branches: the text
between the nearest period before `index` (exclusive) and the nearest
period at or after `index`, stripped. -/
def extract_sentence (context : Str) (index : Nat) : Str :=
  let start :=
    match lastOcc (strL ".") (context.take index) with
    | some i => i + 1
    | none => 0
  let stop :=
    match firstOccFrom (strL ".") (context.drop index) with
    | some j => index + j
    | none => context.length
  pyStrip (pySlice context start stop)

/-- Embedding of `_format_response_about`: first paragraph longer than 100
characters, defaulting to the first paragraph; `none` models the
`IndexError` Python would raise on `paragraphs[0]` with no paragraphs. -/
def format_response_about (entity context : Str) : Option Str :=
  let paragraphs := pySplit nnStr context
  match paragraphs.head? with
  | none => none
  | some p0 =>
    some (strL "Based on the Game of Thrones lore about " ++ entity ++ strL ", " ++
      (paragraphs.find? (fun p => 100 < p.length)).getD p0)

/-- Embedding of `_format_location_response` (llm_integration.py): first
known location appearing case-insensitively in the context, with the
paragraph mentioning it, else a templated first paragraph. -/
def format_location_response (context : Str) : Option Str :=
  match locationsList.find? (fun loc => lowerStr loc <:+: lowerStr context) with
  | some loc =>
    let paragraphs := pySplit nnStr context
    some (loc ++ strL " " ++
      (paragraphs.find? (fun p => lowerStr loc <:+: lowerStr p)).getD
        (strL "is mentioned in the Game of Thrones universe"))
  | none =>
    (pySplit nnStr context).head?.map
      (fun p0 => strL "Based on the Game of Thrones lore, " ++ p0)

/-- Embedding of `_format_time_response`: sentence around the first
temporal indicator found case-insensitively in the context, else a
templated first paragraph. -/
def format_time_response (context : Str) : Option Str :=
  match timeIndicators.findSome?
      (fun ind => firstOccFrom (lowerStr ind) (lowerStr context)) with
  | some idx =>
    some (strL "According to Game of Thrones history, " ++
      extract_sentence context idx ++ strL ".")
  | none =>
    (pySplit nnStr context).head?.map
      (fun p0 => strL "Based on Game of Thrones chronology, " ++ p0)

/-- Embedding of `_format_reason_response`: sentence around the first
reason indicator found case-insensitively in the context, else a
templated first paragraph. -/
def format_reason_response (context : Str) : Option Str :=
  match reasonIndicators.findSome?
      (fun ind => firstOccFrom (lowerStr ind) (lowerStr context)) with
  | some idx =>
    some (strL "In the Game of Thrones world, " ++
      extract_sentence context idx ++ strL ".")
  | none =>
    (pySplit nnStr context).head?.map
      (fun p0 => strL "According to Game of Thrones lore, " ++ p0)

/-- Embedding of `_format_process_response`: first paragraph longer than
150 characters, defaulting to the first paragraph. -/
def format_process_response (context : Str) : Option Str :=
  let paragraphs := pySplit nnStr context
  match paragraphs.head? with
  | none => none
  | some p0 =>
    some (strL "Here" ++ apoStr ++ strL "s how it happened in Game of Thrones: " ++
      (paragraphs.find? (fun p => 150 < p.length)).getD p0)

/-- Embedding of `_format_general_response`: first paragraph containing a
query word longer than 3 characters, else the first paragraph longer than
100 characters, defaulting to the first paragraph. -/
def format_general_response (query context : Str) : Option Str :=
  let paragraphs := pySplit nnStr context
  let query_words := ((wsTokens query).filter (fun w => 3 < w.length)).map lowerStr
  match paragraphs.find? (fun p => query_words.any (fun w => w <:+: lowerStr p)) with
  | some p => some (strL "In Game of Thrones: " ++ p)
  | none =>
    paragraphs.head?.map
      (fun p0 => strL "According to Game of Thrones lore: " ++
        (paragraphs.find? (fun p => 100 < p.length)).getD p0)

/-- Embedding of the rule-based response path (`generate_response` in
got_chatbot.py, `_generate_fallback_response` in llm_integration.py): a
no-information phrase on empty context, otherwise the classified branch.
The unused `first_section` variable of the source is omitted; `none`
models a raised `IndexError`. -/
def generate_response (rand : Nat) (query context : Str) : Option Str :=
  if context = [] then some (get_no_info_response rand)
  else
    let parts := pySplit (strL "---") context
    let first_title :=
      if 1 < parts.length then pyStrip (parts.getD 1 []) else strL "unknown"
    match classify query with
    | .about => format_response_about first_title context
    | .location => format_location_response context
    | .time => format_time_response context
    | .reason => format_reason_response context
    | .process => format_process_response context
    | .general => format_general_response query context

/-- ASCII uppercase letter. -/
def isUpper (c : Char) : Bool := 65 ≤ c.toNat && c.toNat ≤ 90

/-- ASCII lowercase letter. -/
def isLowerAsc (c : Char) : Bool := 97 ≤ c.toNat && c.toNat ≤ 122

/-- Regex word character `[A-Za-z0-9_]`. -/
def isWordChar (c : Char) : Bool :=
  isUpper c || isLowerAsc c || (48 ≤ c.toNat && c.toNat ≤ 57) || c.toNat = 95

/-- Fueled scanner for `re.findall(r"\b[A-Z][a-z]+\b", t)`: an uppercase
letter at a word boundary followed by a nonempty lowercase run ending at
a word boundary.  `prev` records whether the previous character was a
word character. -/
def capWordsAux : Nat → Bool → Str → List Str
  | 0, _, _ => []
  | _ + 1, _, [] => []
  | fuel + 1, prev, c :: rest =>
    if prev = false ∧ isUpper c = true then
      let low := rest.takeWhile isLowerAsc
      let rem := rest.dropWhile isLowerAsc
      if low ≠ [] ∧ (match rem.head? with
          | none => true
          | some d => !isWordChar d) = true then
        (c :: low) :: capWordsAux fuel true rem
      else
        capWordsAux fuel (isWordChar c) rest
    else
      capWordsAux fuel (isWordChar c) rest

/-- All matches of the capitalized-word pattern in `t`: each worker step
consumes at least one character, so fuel `t.length + 1` always suffices. -/
def capWords (t : Str) : List Str := capWordsAux (t.length + 1) false t

/-- The characters of Python `string.punctuation`. -/
def punctChars : Str :=
  strL "!\"#$%&" ++ apoStr ++ strL "()*+,-./:;<=>?@[\\]^_`\x7b|\x7d~"

/-- Membership in `string.punctuation`. -/
def isPunct (c : Char) : Bool := punctChars.contains c

/-- Python `token.strip(string.punctuation)`. -/
def stripPunct (s : Str) : Str :=
  ((s.dropWhile isPunct).reverse.dropWhile isPunct).reverse

/-- Embedding of `LLMIntegration._extract_entities`: lowercase the text
first, then collect the capitalized-word regex matches (on the already
lowercased text), the punctuation-stripped whitespace tokens' 2-word and
3-word windows, and keep candidates longer than 3 characters, lowercased.
The Python set is modelled as a list; membership is what the claims are
about. -/
def extract_entities (text : Str) : List Str :=
  let t := lowerStr text
  let words := capWords t
  let tokens := (wsTokens t).map stripPunct
  let bigrams := (tokens.zip tokens.tail).map (fun ab => ab.1 ++ [' '] ++ ab.2)
  let trigrams := (tokens.zip (tokens.tail.zip tokens.tail.tail)).map
    (fun abc => abc.1 ++ [' '] ++ abc.2.1 ++ [' '] ++ abc.2.2)
  ((words ++ bigrams ++ trigrams).filter (fun e => 3 < e.length)).map lowerStr

theorem infix_of_drop_pre {p t : Str} {i : Nat} (h : p <+: t.drop i) : p <:+: t := by
  obtain ⟨u, hu⟩ := h
  exact ⟨t.take i, u, by rw [List.append_assoc, hu, List.take_append_drop]⟩

theorem occ_first_drop {p t : Str} {i : Nat}
    (h : firstOccFrom p t = some i) : p <+: t.drop i := by
  induction t generalizing i with
  | nil =>
    simp only [firstOccFrom] at h
    split at h
    · cases h; exact ‹p <+: ([] : Str)›
    · cases h
  | cons c t ih =>
    simp only [firstOccFrom] at h
    split at h
    · cases h
      exact ‹p <+: c :: t›
    · cases ho : firstOccFrom p t with
      | none => rw [ho] at h; cases h
      | some j =>
        rw [ho] at h
        cases h
        exact ih ho

theorem occ_first_isSome {p t : Str} (h : p <:+: t) :
    (firstOccFrom p t).isSome = true := by
  induction t with
  | nil =>
    obtain ⟨s, u, e⟩ := h
    obtain ⟨h1, h2⟩ := List.append_eq_nil.mp e
    obtain ⟨h3, h4⟩ := List.append_eq_nil.mp h1
    subst h4
    simp [firstOccFrom]
  | cons c t ih =>
    by_cases hp : p <+: c :: t
    · simp [firstOccFrom, hp]
    · rcases List.infix_cons_iff.mp h with h1 | h2
      · exact absurd h1 hp
      · simpa [firstOccFrom, hp] using ih h2

theorem occ_first_eq_none {p t : Str} (h : ¬ p <:+: t) : firstOccFrom p t = none := by
  cases ho : firstOccFrom p t with
  | none => rfl
  | some i => exact absurd (infix_of_drop_pre (occ_first_drop ho)) h

theorem occ_last_drop {p t : Str} {i : Nat}
    (h : lastOcc p t = some i) : p <+: t.drop i := by
  induction t generalizing i with
  | nil =>
    simp only [lastOcc] at h
    split at h
    · cases h; exact ‹p <+: ([] : Str)›
    · cases h
  | cons c t ih =>
    simp only [lastOcc] at h
    cases ho : lastOcc p t with
    | some j =>
      rw [ho] at h
      cases h
      simpa using ih ho
    | none =>
      rw [ho] at h
      simp only [Option.map_none'] at h
      split at h
      · cases h
        exact ‹p <+: c :: t›
      · cases h

theorem occ_last_eq_none {p t : Str} (h : ¬ p <:+: t) : lastOcc p t = none := by
  cases ho : lastOcc p t with
  | none => rfl
  | some i => exact absurd (infix_of_drop_pre (occ_last_drop ho)) h

theorem toNat_ofNat_valid {n : Nat} (h : n < 55296) : (Char.ofNat n).toNat = n := by
  rw [Char.ofNat, dif_pos (Or.inl h)]
  rfl

theorem isSpace_lowerChar (c : Char) : isSpace (lowerChar c) = isSpace c := by
  unfold lowerChar
  split
  · rename_i h
    have h32 : (Char.ofNat (c.toNat + 32)).toNat = c.toNat + 32 :=
      toNat_ofNat_valid (by omega)
    have hl : isSpace (Char.ofNat (c.toNat + 32)) = false := by
      simp only [isSpace, h32, Bool.or_eq_false_iff, decide_eq_false_iff_not]
      omega
    have hr : isSpace c = false := by
      simp only [isSpace, Bool.or_eq_false_iff, decide_eq_false_iff_not]
      omega
    rw [hl, hr]
  · rfl

theorem infix_map_lower {a b : Str} (h : a <:+: b) : lowerStr a <:+: lowerStr b := by
  obtain ⟨s, u, e⟩ := h
  exact ⟨lowerStr s, lowerStr u, by rw [← e]; simp [lowerStr]⟩

theorem infix_append_both {a b pre post : Str} (h : a <:+: b) :
    a <:+: pre ++ b ++ post := by
  obtain ⟨s, u, e⟩ := h
  exact ⟨pre ++ s, u ++ post, by rw [← e]; simp⟩

theorem infix_of_take_mid {a t : Str} {n : Nat} (h : a <:+: t.take n) : a <:+: t := by
  obtain ⟨s, u, e⟩ := h
  refine ⟨s, u ++ t.drop n, ?_⟩
  conv_rhs => rw [← List.take_append_drop n t, ← e]
  simp

theorem infix_of_drop_mid {a t : Str} {n : Nat} (h : a <:+: t.drop n) : a <:+: t := by
  obtain ⟨s, u, e⟩ := h
  refine ⟨t.take n ++ s, u, ?_⟩
  conv_rhs => rw [← List.take_append_drop n t, ← e]
  simp

theorem infix_dropWhile_of {M t : Str} {pfn : Char → Bool}
    (hM : ∀ c ∈ M, pfn c = false) (hne : M ≠ []) (h : M <:+: t) :
    M <:+: t.dropWhile pfn := by
  induction t with
  | nil =>
    obtain ⟨s, u, e⟩ := h
    obtain ⟨h1, _⟩ := List.append_eq_nil.mp e
    obtain ⟨_, h3⟩ := List.append_eq_nil.mp h1
    exact absurd h3 hne
  | cons c t ih =>
    rcases List.infix_cons_iff.mp h with h1 | h2
    · have hc : pfn c = false := by
        obtain ⟨u, hu⟩ := h1
        cases M with
        | nil => exact absurd rfl hne
        | cons m ms =>
          have : m = c := by simpa using congrArg (fun l => l.head?) hu
          exact this ▸ hM m (by simp)
      rw [List.dropWhile_cons, hc]
      simpa using h1.isInfix
    · by_cases hc : pfn c
      · rw [List.dropWhile_cons, if_pos hc]
        exact ih h2
      · rw [List.dropWhile_cons, if_neg (by simp [hc])]
        exact h

theorem infix_rev {M t : Str} (h : M <:+: t) : M.reverse <:+: t.reverse := by
  obtain ⟨s, u, e⟩ := h
  exact ⟨u.reverse, s.reverse, by rw [← e]; simp⟩

theorem infix_pyStrip {M t : Str} (hM : ∀ c ∈ M, isSpace c = false)
    (hne : M ≠ []) (h : M <:+: t) : M <:+: pyStrip t := by
  have h1 : M <:+: lstrip t := infix_dropWhile_of hM hne h
  have h2 : M.reverse <:+: (lstrip t).reverse := infix_rev h1
  have h3 : M.reverse <:+: (lstrip t).reverse.dropWhile isSpace :=
    infix_dropWhile_of (fun c hc => hM c (List.mem_reverse.mp hc))
      (by simpa using hne) h2
  have h4 : M.reverse.reverse <:+: ((lstrip t).reverse.dropWhile isSpace).reverse :=
    infix_rev h3
  rw [List.reverse_reverse] at h4
  exact h4

theorem prefix_under_drop {u v : Str} {n : Nat} (h : u <+: v) : u.drop n <+: v.drop n := by
  obtain ⟨w, hw⟩ := h
  by_cases hn : n ≤ u.length
  · exact ⟨w, by rw [← hw, List.drop_append_of_le_length hn]⟩
  · have : u.drop n = [] := by
      rw [List.drop_eq_nil_iff]
      omega
    rw [this]
    exact List.nil_prefix

theorem take_is_pre (n : Nat) (l : Str) : l.take n <+: l :=
  ⟨l.drop n, List.take_append_drop n l⟩

theorem slice_in_slice {s : Str} {a b p k : Nat} (h1 : a ≤ p) (h2 : p + k ≤ b) :
    pySlice s p (p + k) <:+: pySlice s a b := by
  unfold pySlice
  have ht : s.take (p + k) = (s.take b).take (p + k) := by
    rw [List.take_take, Nat.min_eq_left h2]
  rw [ht]
  have hd : ((s.take b).take (p + k)).drop a <+: (s.take b).drop a :=
    prefix_under_drop (take_is_pre _ _)
  have he : ((s.take b).take (p + k)).drop p =
      (((s.take b).take (p + k)).drop a).drop (p - a) := by
    rw [List.drop_drop]
    congr 1
    omega
  rw [he]
  exact (List.drop_suffix _ _).isInfix.trans hd.isInfix

theorem infix_lower_ext (pre post : Str) {Q x : Str} (h : lowerStr Q <:+: lowerStr x) :
    lowerStr Q <:+: lowerStr (pre ++ x ++ post) := by
  show lowerStr Q <:+: List.map lowerChar (pre ++ x ++ post)
  rw [List.map_append, List.map_append]
  exact infix_append_both h


theorem excStart_le_pos (content : Str) (pos cc : Nat) :
    excStart content pos cc ≤ pos := by
  cases hps : lastOcc nnStr (content.take pos) with
  | none =>
    simp only [excStart, hps]
    omega
  | some ps =>
    have h1 := (occ_last_drop hps).length_le
    simp [nnStr, List.length_drop, List.length_take] at h1
    simp only [excStart, hps]
    split <;> omega

theorem le_excEnd {content Q : Str} {pos cc : Nat}
    (hposlen : pos + Q.length ≤ content.length)
    (hno : ∀ j, firstOccFrom nnStr (content.drop pos) = some j → Q.length ≤ j) :
    pos + Q.length ≤ excEnd content Q pos cc := by
  cases hpe : firstOccFrom nnStr (content.drop pos) with
  | none =>
    simp only [excEnd, hpe]
    omega
  | some j =>
    have := hno j hpe
    simp only [excEnd, hpe]
    split <;> omega

/-- C3 (amended): for every document content, every contextChars bound,
and every nonempty query without whitespace characters that occurs as an
exact substring of the content, the excerpt returned by the Excerpt
Extractor `get_excerpt` contains the query up to letter case: some
substring of the excerpt has the same lowercasing as the query.  (Exact
containment fails because the extractor matches case-insensitively; see
the counterexample.) -/
theorem excerpt_contains_query_mod_case (content Q : Str) (cc : Nat)
    (hne : Q ≠ []) (hws : ∀ c ∈ Q, isSpace c = false) (hocc : Q <:+: content) :
    lowerStr Q <:+: lowerStr (get_excerpt content Q cc) := by
  have hinf : lowerStr Q <:+: lowerStr content := infix_map_lower hocc
  obtain ⟨pos, hpos⟩ := Option.isSome_iff_exists.mp (occ_first_isSome hinf)
  have hpre : lowerStr Q <+: (lowerStr content).drop pos := occ_first_drop hpos
  have hlen : Q.length ≤ content.length - pos := by
    have := hpre.length_le
    simpa [lowerStr] using this
  have hQpos : 0 < Q.length := List.length_pos.mpr hne
  have hposlen : pos + Q.length ≤ content.length := by omega
  set M := (content.drop pos).take Q.length with hMdef
  have hMlower : lowerStr M = lowerStr Q := by
    obtain ⟨u, hu⟩ := hpre
    have h1 : lowerStr M = ((lowerStr content).drop pos).take Q.length := by
      rw [hMdef]
      show List.map lowerChar _ = _
      rw [List.map_take, List.map_drop]
      rfl
    rw [h1, ← hu]
    have h2 := List.take_left (lowerStr Q) u
    have h3 : (lowerStr Q).length = Q.length := by simp [lowerStr]
    rw [h3] at h2
    exact h2
  have hMws : ∀ c ∈ M, isSpace c = false := by
    intro c hc
    have hmem : lowerChar c ∈ lowerStr Q :=
      hMlower ▸ List.mem_map_of_mem lowerChar hc
    obtain ⟨q1, hq1, he⟩ := List.mem_map.mp hmem
    have h1 : isSpace (lowerChar q1) = false := by
      rw [isSpace_lowerChar]
      exact hws q1 hq1
    rw [← isSpace_lowerChar]
    rw [he] at h1
    exact h1
  have hMlen : M.length = Q.length := by
    rw [hMdef]
    simp [List.length_take, List.length_drop]
    omega
  have hMne : M ≠ [] := by
    intro hnil
    rw [hnil] at hMlen
    simp at hMlen
    omega
  have hno : ∀ j, firstOccFrom nnStr (content.drop pos) = some j → Q.length ≤ j := by
    intro j hpe
    by_contra hjlt
    push_neg at hjlt
    obtain ⟨u, hu⟩ := occ_first_drop hpe
    have hulen := congrArg List.length hu
    simp [nnStr, List.length_drop] at hulen
    have hjM : j < M.length := by omega
    have hjc : j < (content.drop pos).length := by
      simp [List.length_drop]
      omega
    have hj0 : 0 < ((content.drop pos).drop j).length := by
      rw [← hu]
      simp [nnStr]
    have hMj : M[j] = (content.drop pos)[j] := List.getElem_take _
    have hdj : ((content.drop pos).drop j)[0] = (content.drop pos)[j] := by
      rw [List.getElem_drop]
      simp
    have hnl : (content.drop pos)[j] = '\n' := by
      rw [← hdj]
      have he2 : (content.drop pos).drop j = nnStr ++ u := hu.symm
      simp [he2, nnStr]
    have hmem2 : ('\n' : Char) ∈ M := by
      rw [← hnl, ← hMj]
      exact List.getElem_mem _
    have := hMws '\n' hmem2
    simp [isSpace] at this
  have core : lowerStr Q <:+: lowerStr (pyStrip (pySlice content
      (excStart content pos cc) (excEnd content Q pos cc))) := by
    have hMeq : M = pySlice content pos (pos + Q.length) := by
      rw [hMdef, pySlice, List.drop_take]
      congr 1
      omega
    have hMslice : M <:+: pySlice content (excStart content pos cc) (excEnd content Q pos cc) := by
      rw [hMeq]
      exact slice_in_slice (excStart_le_pos content pos cc) (le_excEnd hposlen hno)
    have hstrip := infix_pyStrip hMws hMne hMslice
    rw [← hMlower]
    exact infix_map_lower hstrip
  simp only [get_excerpt, hpos]
  split
  · split
    · exact infix_lower_ext dots dots core
    · simpa using infix_lower_ext [] dots core
  · split
    · simpa using infix_lower_ext dots [] core
    · simpa using infix_lower_ext [] [] core

theorem ccAux_is_sub (q : Str) (mc : Nat) :
    ∀ (hits : List Doc) (parts : List Str) (total : Nat),
    ∃ sub : List Doc, sub.Sublist hits ∧
      ccAux q mc hits parts total = parts ++ sub.map (fmtBlock q) := by
  intro hits
  induction hits with
  | nil =>
    intro parts total
    exact ⟨[], List.Sublist.refl [], by simp [ccAux]⟩
  | cons d rest ih =>
    intro parts total
    by_cases hc : total + (get_excerpt d.content q 150).length + d.title.length + 10 ≤ mc
    · obtain ⟨sub, hs, he⟩ :=
        ih (parts ++ [fmtBlock q d]) (total + (get_excerpt d.content q 150).length + d.title.length + 10)
      refine ⟨d :: sub, hs.cons₂ d, ?_⟩
      simp only [ccAux]
      rw [if_pos hc, he]
      simp
    · obtain ⟨sub, hs, he⟩ := ih parts total
      refine ⟨sub, hs.cons d, ?_⟩
      simp only [ccAux]
      rw [if_neg hc]
      exact he

theorem joinBlank_len_le : ∀ parts : List Str,
    (joinBlank parts).length ≤ sumLen parts + 2 * parts.length := by
  intro parts
  induction parts with
  | nil => simp [joinBlank, sumLen]
  | cons x r ih =>
    cases r with
    | nil => simp [joinBlank, sumLen]
    | cons y r2 =>
      simp only [joinBlank, List.length_append, sumLen, List.map_cons, List.sum_cons,
        List.length_cons] at *
      have hnn : nnStr.length = 2 := rfl
      omega

theorem ccAux_budget (q : Str) (mc : Nat) :
    ∀ (hits : List Doc) (parts : List Str) (total : Nat), total ≤ mc →
      sumLen parts + parts.length ≤ total →
      sumLen (ccAux q mc hits parts total) + (ccAux q mc hits parts total).length ≤ mc := by
  intro hits
  induction hits with
  | nil =>
    intro parts total h1 h2
    simp only [ccAux]
    omega
  | cons d rest ih =>
    intro parts total h1 h2
    by_cases hc : total + (get_excerpt d.content q 150).length + d.title.length + 10 ≤ mc
    · simp only [ccAux]
      rw [if_pos hc]
      apply ih _ _ hc
      have hfb : (fmtBlock q d).length =
          (get_excerpt d.content q 150).length + d.title.length + 9 := by
        simp [fmtBlock, strL]
        omega
      simp only [sumLen, List.map_append, List.sum_append, List.length_append,
        List.map_cons, List.sum_cons, List.map_nil, List.sum_nil, List.length_cons,
        List.length_nil]
      simp only [sumLen] at h2
      omega
    · simp only [ccAux]
      rw [if_neg hc]
      exact ih _ _ h1 h2

theorem ccAux_count (q : Str) (mc : Nat) :
    ∀ (hits : List Doc) (parts : List Str) (total : Nat),
      (ccAux q mc hits parts total).length ≤ parts.length + hits.length := by
  intro hits
  induction hits with
  | nil =>
    intro parts total
    simp [ccAux]
  | cons d rest ih =>
    intro parts total
    by_cases hc : total + (get_excerpt d.content q 150).length + d.title.length + 10 ≤ mc
    · simp only [ccAux]
      rw [if_pos hc]
      have := ih (parts ++ [fmtBlock q d])
        (total + (get_excerpt d.content q 150).length + d.title.length + 10)
      simp only [List.length_append, List.length_cons, List.length_nil] at *
      omega
    · simp only [ccAux]
      rw [if_neg hc]
      have := ih parts total
      simp only [List.length_cons] at *
      omega

/-- C1 (amended): context assembly processes the hits in rank order and,
at a hit whose formatted block would push the running accounted length
over maxChars, skips that hit and continues with later hits
(skip-and-continue): the assembled context consists of the blocks of a
rank-order subsequence of the hits — not necessarily a prefix of the
accepted run, so a lower-ranked hit's block can appear after a
higher-ranked hit's block was rejected. -/
theorem create_context_blocks_are_subsequence (hits : List Doc) (q : Str) (mc : Nat) :
    ∃ sub : List Doc, sub.Sublist hits ∧
      create_context hits q mc = joinBlank (sub.map (fmtBlock q)) := by
  obtain ⟨sub, hs, he⟩ := ccAux_is_sub q mc hits [] 0
  refine ⟨sub, hs, ?_⟩
  rw [create_context, he]
  simp

set_option maxRecDepth 8000 in
/-- C1 (counterexample): with max chars 20, the first-ranked hit's block
is rejected (its accounted length 34 exceeds the budget), yet the
lower-ranked second hit's block still appears as the assembled context —
assembly does not stop at the first rejection, refuting the
no-skip-and-continue claim. -/
theorem create_context_c1_counterexample :
    ¬ (0 + (get_excerpt (List.replicate 20 'b') ['q'] 150).length + (strL "A").length + 10 ≤ 20) ∧
    create_context [⟨strL "A", List.replicate 20 'b'⟩, ⟨strL "B", ['q']⟩] ['q'] 20 =
      fmtBlock ['q'] ⟨strL "B", ['q']⟩ := by
  refine ⟨by decide, by decide⟩

/-- C2 (amended): the assembled context's length is bounded by maxChars
plus the number of hits: the loop bounds the accounted total
(`len(excerpt) + len(title) + 10` per accepted block) by maxChars, but
each accepted block's real contribution is its accounted value minus one
plus two joining characters, so the true length can exceed maxChars by up
to the number of accepted blocks minus two (see the counterexample). -/
theorem create_context_length_le (hits : List Doc) (q : Str) (mc : Nat) :
    (create_context hits q mc).length ≤ mc + hits.length := by
  have hb := ccAux_budget q mc hits [] 0 (by omega) (by simp [sumLen])
  have hc := ccAux_count q mc hits [] 0
  have hj := joinBlank_len_le (ccAux q mc hits [] 0)
  rw [create_context]
  simp only [List.length_nil] at hc
  omega

/-- C2 (counterexample): three one-character documents with one-character
titles against a budget of 36: every block is accepted by the accounted
check, but the real context is 37 characters long, exceeding maxChars. -/
theorem create_context_c2_counterexample :
    (create_context [⟨strL "A", ['q']⟩, ⟨strL "B", ['q']⟩, ⟨strL "C", ['q']⟩] ['q'] 36).length = 37 ∧
    ¬ ((create_context [⟨strL "A", ['q']⟩, ⟨strL "B", ['q']⟩, ⟨strL "C", ['q']⟩] ['q'] 36).length ≤ 36) := by
  refine ⟨by decide, by decide⟩

set_option maxRecDepth 40000 in
/-- C3 (counterexample): the query "A" occurs exactly in the content
"a" + 151 x's + "A", but the extractor matches the case-insensitive
occurrence at position 0 and cuts the window before the exact occurrence,
so the returned excerpt does not contain "A" — refuting the claim that
the excerpt contains every exact-substring query. -/
theorem get_excerpt_c3_counterexample :
    (['A'] : Str) ≠ [] ∧
    (['A'] : Str) <:+: ('a' :: (List.replicate 151 'x' ++ ['A'])) ∧
    ¬ (['A'] : Str) <:+: get_excerpt ('a' :: (List.replicate 151 'x' ++ ['A'])) ['A'] 150 := by
  refine ⟨by decide, by decide, by decide⟩

/-- Witness: the amended C3 theorem applied to the query "ax" and content
"Maxim", whose lowered excerpt contains "ax". -/
theorem excerpt_contains_query_mod_case_witness :
    lowerStr (strL "ax") <:+: lowerStr (get_excerpt (strL "Maxim") (strL "ax") 150) :=
  excerpt_contains_query_mod_case (strL "Maxim") (strL "ax") 150
    (by decide) (by decide) (by decide)

/-- C4 (counterexample): for the content "abc" (3 characters, far below
2 * 150) and a query "zzzz" that does not occur, the extractor returns
"abc..." — an ellipsis marker is appended, and the result differs from
the trimmed whole content, refuting the claim. -/
theorem get_excerpt_c4_counterexample :
    (strL "abc").length < 2 * 150 ∧
    get_excerpt (strL "abc") (strL "zzzz") 150 = strL "abc..." ∧
    get_excerpt (strL "abc") (strL "zzzz") 150 ≠ pyStrip (strL "abc") := by
  refine ⟨by decide, by decide, by decide⟩

/-- C4 (amended): when the query occurs case-insensitively in the content
at first position `pos` with `pos ≤ contextChars`, the whole content fits
in the window (`len(content) ≤ pos + len(query) + contextChars`), and the
content contains no blank-line separator, the extractor returns the whole
content trimmed, with no ellipsis marker prepended or appended.  (The
original claim fails: the not-found fallback always appends an ellipsis,
and a match deeper than `contextChars` shifts the window; see the
counterexample.) -/
theorem get_excerpt_whole_content (content Q : Str) (cc pos : Nat)
    (hpos : firstOccFrom (lowerStr Q) (lowerStr content) = some pos)
    (h1 : pos ≤ cc) (h2 : content.length ≤ pos + Q.length + cc)
    (h3 : ¬ nnStr <:+: content) :
    get_excerpt content Q cc = pyStrip content := by
  have hs : lastOcc nnStr (content.take pos) = none :=
    occ_last_eq_none (fun hI => h3 (infix_of_take_mid hI))
  have he : firstOccFrom nnStr (content.drop pos) = none :=
    occ_first_eq_none (fun hI => h3 (infix_of_drop_mid hI))
  have hst : excStart content pos cc = 0 := by
    simp only [excStart, hs]
    omega
  have hen : excEnd content Q pos cc = content.length := by
    simp only [excEnd, he]
    omega
  simp only [get_excerpt, hpos, hst, hen]
  rw [if_neg (lt_irrefl _), if_neg (by omega)]
  simp [pySlice, List.take_length]

/-- Witness: the amended C4 theorem applied to content "ab" and query
"a", for which the excerpt is the trimmed whole content. -/
theorem get_excerpt_whole_content_witness :
    get_excerpt (strL "ab") (strL "a") 150 = pyStrip (strL "ab") :=
  get_excerpt_whole_content (strL "ab") (strL "a") 150 0
    (by decide) (by decide) (by decide) (by decide)

/-- C5: the rule-based formatter classifies queries by case-insensitive
substring matching on the raw query in the fixed precedence order
who/"what is", where, when, why, how, else general, first match winning —
in particular any query containing "who" (even one also containing
"why") is routed to the About branch. -/
theorem classify_precedence (q : Str) :
    ((strL "who" <:+: lowerStr q ∨ strL "what is" <:+: lowerStr q) →
      classify q = QueryClass.about) ∧
    (¬ (strL "who" <:+: lowerStr q ∨ strL "what is" <:+: lowerStr q) →
      strL "where" <:+: lowerStr q → classify q = QueryClass.location) ∧
    (¬ (strL "who" <:+: lowerStr q ∨ strL "what is" <:+: lowerStr q) →
      ¬ strL "where" <:+: lowerStr q → strL "when" <:+: lowerStr q →
      classify q = QueryClass.time) ∧
    (¬ (strL "who" <:+: lowerStr q ∨ strL "what is" <:+: lowerStr q) →
      ¬ strL "where" <:+: lowerStr q → ¬ strL "when" <:+: lowerStr q →
      strL "why" <:+: lowerStr q → classify q = QueryClass.reason) ∧
    (¬ (strL "who" <:+: lowerStr q ∨ strL "what is" <:+: lowerStr q) →
      ¬ strL "where" <:+: lowerStr q → ¬ strL "when" <:+: lowerStr q →
      ¬ strL "why" <:+: lowerStr q → strL "how" <:+: lowerStr q →
      classify q = QueryClass.process) ∧
    (¬ (strL "who" <:+: lowerStr q ∨ strL "what is" <:+: lowerStr q) →
      ¬ strL "where" <:+: lowerStr q → ¬ strL "when" <:+: lowerStr q →
      ¬ strL "why" <:+: lowerStr q → ¬ strL "how" <:+: lowerStr q →
      classify q = QueryClass.general) := by
  refine ⟨?_, ?_, ?_, ?_, ?_, ?_⟩
  · intro h1
    simp only [classify]
    rw [if_pos h1]
  · intro h1 h2
    simp only [classify]
    rw [if_neg h1, if_pos h2]
  · intro h1 h2 h3
    simp only [classify]
    rw [if_neg h1, if_neg h2, if_pos h3]
  · intro h1 h2 h3 h4
    simp only [classify]
    rw [if_neg h1, if_neg h2, if_neg h3, if_pos h4]
  · intro h1 h2 h3 h4 h5
    simp only [classify]
    rw [if_neg h1, if_neg h2, if_neg h3, if_neg h4, if_pos h5]
  · intro h1 h2 h3 h4 h5
    simp only [classify]
    rw [if_neg h1, if_neg h2, if_neg h3, if_neg h4, if_neg h5]

/-- Witness: the precedence theorem applied to the query "Who is the
father of Jon Snow and why did he hide it?", which contains both "who"
and "why" and is routed to the About branch. -/
theorem classify_precedence_witness :
    strL "who" <:+: lowerStr (strL "Who is the father of Jon Snow and why did he hide it?") ∧
    strL "why" <:+: lowerStr (strL "Who is the father of Jon Snow and why did he hide it?") ∧
    classify (strL "Who is the father of Jon Snow and why did he hide it?") = QueryClass.about :=
  ⟨by decide, by decide,
    (classify_precedence (strL "Who is the father of Jon Snow and why did he hide it?")).1
      (Or.inl (by decide))⟩

/-- C6: evaluation at the failing input "Daenerys": the candidate entity
set extracted by `extract_entities` is empty — in particular the
lowercased capitalized word "daenerys" (longer than 3 characters) is not
in it, because the code lowercases the text before running the
capitalized-word regex, which therefore never matches. -/
theorem extract_entities_drops_cap_words :
    extract_entities (strL "Daenerys") = [] ∧
    strL "daenerys" ∉ extract_entities (strL "Daenerys") := by
  refine ⟨by decide, by decide⟩

theorem upsert_title_mem {t : Str} {d : Doc} :
    ∀ {s : List Doc}, t ∈ (upsertDoc d s).map Doc.title →
      t = d.title ∨ t ∈ s.map Doc.title := by
  intro s
  induction s with
  | nil =>
    intro h
    simp [upsertDoc] at h
    exact Or.inl h
  | cons x xs ih =>
    intro h
    by_cases hx : x.title = d.title
    · simp only [upsertDoc, if_pos hx, List.map_cons, List.mem_cons] at h
      rcases h with h | h
      · exact Or.inl h
      · exact Or.inr (by simp [h])
    · simp only [upsertDoc, if_neg hx, List.map_cons, List.mem_cons] at h
      rcases h with h | h
      · exact Or.inr (by simp [h])
      · rcases ih h with h2 | h2
        · exact Or.inl h2
        · exact Or.inr (by simp [h2])

theorem upsert_nodup {d : Doc} :
    ∀ {s : List Doc}, (s.map Doc.title).Nodup →
      ((upsertDoc d s).map Doc.title).Nodup := by
  intro s
  induction s with
  | nil =>
    intro h
    simp [upsertDoc]
  | cons x xs ih =>
    intro h
    rw [List.map_cons, List.nodup_cons] at h
    by_cases hx : x.title = d.title
    · simp only [upsertDoc, if_pos hx, List.map_cons, List.nodup_cons]
      refine ⟨?_, h.2⟩
      rw [← hx]
      exact h.1
    · simp only [upsertDoc, if_neg hx, List.map_cons, List.nodup_cons]
      refine ⟨?_, ih h.2⟩
      intro hmem
      rcases upsert_title_mem hmem with h2 | h2
      · exact hx h2
      · exact h.1 h2

theorem filter_title_nil {d : Doc} :
    ∀ {xs : List Doc}, d.title ∉ xs.map Doc.title →
      xs.filter (fun x => decide (x.title = d.title)) = [] := by
  intro xs
  induction xs with
  | nil =>
    intro _
    rfl
  | cons y ys ih =>
    intro h
    rw [List.map_cons, List.mem_cons] at h
    push_neg at h
    have hy : (decide (y.title = d.title)) = false := by
      simp only [decide_eq_false_iff_not]
      exact fun he => h.1 he.symm
    rw [List.filter_cons, hy]
    simp only [Bool.false_eq_true, if_false]
    exact ih h.2

theorem upsert_twice_filter {d : Doc} :
    ∀ {s : List Doc}, (s.map Doc.title).Nodup →
      (upsertDoc d (upsertDoc d s)).filter (fun x => decide (x.title = d.title)) = [d] := by
  intro s
  induction s with
  | nil =>
    intro _
    simp [upsertDoc]
  | cons x xs ih =>
    intro h
    rw [List.map_cons, List.nodup_cons] at h
    by_cases hx : x.title = d.title
    · simp only [upsertDoc, if_pos hx, if_true]
      rw [List.filter_cons, if_pos (by simp)]
      have hnil : xs.filter (fun y => decide (y.title = d.title)) = [] :=
        filter_title_nil (by rw [← hx]; exact h.1)
      rw [hnil]
    · simp only [upsertDoc, if_neg hx]
      have hxf : (decide (x.title = d.title)) = false := by
        simp [hx]
      rw [List.filter_cons, hxf]
      simp only [Bool.false_eq_true, if_false]
      exact ih h.2

/-- C7: import is an idempotent upsert keyed by title: under the store
invariant that titles are unique, importing the same document twice
leaves exactly one stored document with that title — the second import
overwrites it, so the single match is the imported document itself — and
an import preserves the title-uniqueness invariant, never creating a
duplicate title. -/
theorem import_idempotent_upsert (store : List Doc) (d : Doc)
    (h : (store.map Doc.title).Nodup) :
    (importDocs [d] (importDocs [d] store)).filter (fun x => decide (x.title = d.title)) = [d] ∧
    ((importDocs [d] store).map Doc.title).Nodup := by
  constructor
  · have he : importDocs [d] (importDocs [d] store) = upsertDoc d (upsertDoc d store) := rfl
    rw [he]
    exact upsert_twice_filter h
  · exact upsert_nodup h

/-- Witness: double import of a Jon Snow document into a store holding an
Arya Stark document. -/
theorem import_idempotent_upsert_witness :
    (importDocs [Doc.mk (strL "Jon Snow") (strL "King in the North")]
      (importDocs [Doc.mk (strL "Jon Snow") (strL "King in the North")]
        [Doc.mk (strL "Arya Stark") (strL "girl")])).filter
      (fun x => decide (x.title = (Doc.mk (strL "Jon Snow") (strL "King in the North")).title)) =
      [Doc.mk (strL "Jon Snow") (strL "King in the North")] ∧
    ((importDocs [Doc.mk (strL "Jon Snow") (strL "King in the North")]
      [Doc.mk (strL "Arya Stark") (strL "girl")]).map Doc.title).Nodup :=
  import_idempotent_upsert [Doc.mk (strL "Arya Stark") (strL "girl")]
    (Doc.mk (strL "Jon Snow") (strL "King in the North")) (by decide)

/-- C8: retrieval falls back silently from vector to lexical search: when
no embeddings model is available, or the vector path fails with any
error, `vector_search` returns exactly the result of the lexical
`search` for the same query and limit; being a total function, it never
propagates the error to its caller. -/
theorem vector_search_falls_back (b : RetrievalBackend) (q : Str) (lim : Nat)
    (h : b.hasEmbeddings = false ∨ ∃ e, b.vecResult q lim = Except.error e) :
    vector_search b q lim = search b q lim := by
  rcases h with h | ⟨e, he⟩
  · simp [vector_search, h]
  · by_cases hb : b.hasEmbeddings
    · simp [vector_search, hb, he]
    · simp [vector_search, hb]

/-- Witness: a backend whose vector path raises falls back to the text
search result. -/
theorem vector_search_falls_back_witness :
    vector_search
      ⟨fun _ _ => Except.ok [Doc.mk (strL "T") (strL "c")],
       fun _ _ => Except.error (strL "boom"), true⟩ (strL "q") 5 =
    search
      ⟨fun _ _ => Except.ok [Doc.mk (strL "T") (strL "c")],
       fun _ _ => Except.error (strL "boom"), true⟩ (strL "q") 5 :=
  vector_search_falls_back _ _ _ (Or.inr ⟨strL "boom", rfl⟩)

/-- C9: for every random draw and every query, when the assembled context
is the empty string the formatter returns one of the fixed
no-information phrasings, never a context-derived answer. -/
theorem empty_context_no_info (rand : Nat) (query : Str) :
    ∃ m ∈ noInfoResponses, generate_response rand query [] = some m := by
  refine ⟨get_no_info_response rand, ?_, by simp [generate_response]⟩
  rw [get_no_info_response]
  have h6 : rand % 6 < noInfoResponses.length := by
    have hl : noInfoResponses.length = 6 := rfl
    omega
  rw [List.getD_eq_getElem?_getD, List.getElem?_eq_getElem h6]
  simp only [Option.getD_some]
  exact List.getElem_mem h6

theorem pySplitAux_ne_nil : ∀ (fuel : Nat) (sep s : Str), pySplitAux fuel sep s ≠ [] := by
  intro fuel sep s
  cases fuel with
  | zero => simp [pySplitAux]
  | succ n =>
    cases h : firstOccFrom sep s with
    | none => simp [pySplitAux, h]
    | some i => simp [pySplitAux, h]

theorem head_isSome_of_ne_nil {l : List Str} (h : l ≠ []) : l.head?.isSome = true :=
  List.head?_isSome.mpr h

/-- C10: for every nonempty context and every query, the rule-based
formatter produces a response: splitting the context on blank lines
yields at least one paragraph, every selection step falls back to the
first paragraph, and every classification branch terminates with a
templated string — `none`, which models a raised exception, is
impossible. -/
theorem generate_response_total (rand : Nat) (query context : Str)
    (h : context ≠ []) : (generate_response rand query context).isSome = true := by
  have hsp : (pySplit nnStr context).head?.isSome = true :=
    head_isSome_of_ne_nil (pySplitAux_ne_nil _ _ _)
  obtain ⟨p0, hp0⟩ := Option.isSome_iff_exists.mp hsp
  unfold generate_response
  rw [if_neg h]
  cases classify query with
  | about => simp [format_response_about, hp0]
  | location =>
    cases hf : locationsList.find? (fun loc => lowerStr loc <:+: lowerStr context) with
    | some loc => simp [format_location_response, hf]
    | none => simp [format_location_response, hf, hp0]
  | time =>
    cases hf : timeIndicators.findSome?
        (fun ind => firstOccFrom (lowerStr ind) (lowerStr context)) with
    | some idx => simp [format_time_response, hf]
    | none => simp [format_time_response, hf, hp0]
  | reason =>
    cases hf : reasonIndicators.findSome?
        (fun ind => firstOccFrom (lowerStr ind) (lowerStr context)) with
    | some idx => simp [format_reason_response, hf]
    | none => simp [format_reason_response, hf, hp0]
  | process => simp [format_process_response, hp0]
  | general =>
    simp only [format_general_response]
    split
    · simp
    · rw [hp0]
      simp

/-- Witness: the formatter applied to a nonempty context returns a
response. -/
theorem generate_response_total_witness :
    (generate_response 0 (strL "Hello") (strL "Some lore.")).isSome = true :=
  generate_response_total 0 (strL "Hello") (strL "Some lore.") (by decide)
